import Mathlib

set_option maxRecDepth 8000

/-!
Verification of the Medical Report Analyzer core (`app.py`) against its
specification.  Strings are modelled as `List Char`; the two ML collaborators
(the tokenizer and the abstractive summarization model) are modelled as
parameters that may fail (`Except Unit`), mirroring Python exceptions.
-/

/-- The whitespace characters recognised by Python's `str.split`, `str.strip`
and the regex class used in `app.py` (space, tab, newline, carriage return,
vertical tab, form feed). -/
def isPySpace (c : Char) : Bool :=
  c == ' ' || c == '\t' || c == '\n' || c == '\r' ||
    c == Char.ofNat 11 || c == Char.ofNat 12

/-- A character that is not whitespace. -/
def notWs (c : Char) : Bool := !(isPySpace c)

/-- Word counting as performed by Python's `str.split()`: the number of
maximal non-whitespace runs.  The flag records whether the previous character
was inside a word. -/
def wordsAux : Bool → List Char → Nat
  | _, [] => 0
  | inWord, c :: rest =>
    if isPySpace c then wordsAux false rest
    else (if inWord then 0 else 1) + wordsAux true rest

/-- `len(text.split())` for a text. -/
def wordCount (l : List Char) : Nat := wordsAux false l

/-- `max_input_tokens = 900` from `summarize_large_report`. -/
def max_input_tokens : Nat := 900

/-- Fuel-indexed window splitter: `tokens[i:i + max_input_tokens]` for
`i in range(0, len(tokens), max_input_tokens)`.  The fuel is instantiated
with the length of the list, which suffices because each step consumes at
least one token. -/
def chunkAux : Nat → List Nat → List (List Nat)
  | 0, _ => []
  | _ + 1, [] => []
  | fuel + 1, t :: ts =>
    (t :: ts).take max_input_tokens :: chunkAux fuel ((t :: ts).drop max_input_tokens)

/-- The splitter of `summarize_large_report`: consecutive, non-overlapping
windows of at most `max_input_tokens` tokens. -/
def chunkTokens (ts : List Nat) : List (List Nat) := chunkAux ts.length ts

theorem chunkAux_join (fuel : Nat) :
    ∀ ts : List Nat, ts.length ≤ fuel → (chunkAux fuel ts).flatten = ts := by
  induction fuel with
  | zero =>
    intro ts h
    have : ts = [] := List.length_eq_zero.mp (Nat.le_zero.mp h)
    subst this; rfl
  | succ n ih =>
    intro ts h
    match ts with
    | [] => rfl
    | t :: ts =>
      simp only [List.length_cons] at h
      simp only [chunkAux, List.flatten]
      rw [ih _ (by simp only [List.length_drop, List.length_cons, max_input_tokens]; omega)]
      exact List.take_append_drop _ _

theorem chunkAux_length (fuel : Nat) :
    ∀ ts : List Nat, ts.length ≤ fuel →
      (chunkAux fuel ts).length = (ts.length + (max_input_tokens - 1)) / max_input_tokens := by
  induction fuel with
  | zero =>
    intro ts h
    have : ts = [] := List.length_eq_zero.mp (Nat.le_zero.mp h)
    subst this; rfl
  | succ n ih =>
    intro ts h
    match ts with
    | [] => rfl
    | t :: ts =>
      simp only [List.length_cons] at h
      simp only [chunkAux, List.length_cons]
      rw [ih _ (by simp only [List.length_drop, List.length_cons, max_input_tokens]; omega)]
      simp only [List.length_drop, max_input_tokens, List.length_cons]
      have h1 : ts.length + 1 + (900 - 1) = (ts.length) + 900 := by omega
      rw [h1, Nat.add_div_right _ (by omega)]
      rcases Nat.le_total (ts.length + 1) 900 with hle | hge
      · have h2 : ts.length + 1 - 900 = 0 := by omega
        rw [h2]
        have h3 : ts.length / 900 = 0 := Nat.div_eq_of_lt (by omega)
        have h4 : (0 + (900 - 1)) / 900 = 0 := by decide
        rw [h3, h4]
      · have h2 : ts.length + 1 - 900 + (900 - 1) = ts.length := by omega
        rw [h2]

theorem chunkAux_sizes (fuel : Nat) :
    ∀ ts : List Nat,
      (chunkAux fuel ts).all (fun c => decide (c.length ≤ max_input_tokens)) = true := by
  induction fuel with
  | zero => intro ts; rfl
  | succ n ih =>
    intro ts
    match ts with
    | [] => rfl
    | t :: ts =>
      simp only [chunkAux, List.all_cons, Bool.and_eq_true, decide_eq_true_eq]
      refine ⟨?_, ih _⟩
      simp only [List.length_take]
      omega

/-- Claim C1: with window size `max_input_tokens = 900`, the splitter produces
exactly `⌈L / 900⌉` consecutive, non-overlapping windows for a token sequence
of length `L`, every window holds at most 900 tokens, and concatenating the
windows in order reconstructs the original token sequence. -/
theorem chunk_split_spec (ts : List Nat) :
    (chunkTokens ts).length = (ts.length + (max_input_tokens - 1)) / max_input_tokens ∧
    (chunkTokens ts).all (fun c => decide (c.length ≤ max_input_tokens)) = true ∧
    (chunkTokens ts).flatten = ts :=
  ⟨chunkAux_length ts.length ts (Nat.le_refl _),
   chunkAux_sizes ts.length ts,
   chunkAux_join ts.length ts (Nat.le_refl _)⟩

/-- `" ".join(strs)` from Python: interleave a single space between the
elements. -/
def joinSpace : List (List Char) → List Char
  | [] => []
  | [s] => s
  | s :: t :: rest => s ++ ' ' :: joinSpace (t :: rest)

/-- `max_length=120` of the per-chunk summarization calls. -/
def chunk_max_length : Nat := 120

/-- `min_length=40` of the per-chunk summarization calls. -/
def chunk_min_length : Nat := 40

/-- `max_length=120` of the optional final compression call. -/
def final_max_length : Nat := 120

/-- `min_length=50` of the optional final compression call. -/
def final_min_length : Nat := 50

/-- The fixed fallback sentence returned when no chunk summary succeeded. -/
def fallbackMessage : List Char :=
  ("Unable to safely summarize this report due to formatting or length.").data

/-- A record of one invocation of the summarization collaborator, with the
text passed and the `max_length` / `min_length` arguments. -/
structure SummCall where
  input : List Char
  maxLen : Nat
  minLen : Nat
deriving DecidableEq, Repr

/-- The external collaborators of `summarize_large_report`: the tokenizer's
encode and decode, and the summarization model.  Each may raise (modelled by
`Except.error`), and each is deterministic (`do_sample=False`). -/
structure Collab where
  enc : List Char → Except Unit (List Nat)
  dec : List Nat → Except Unit (List Char)
  summ : List Char → Nat → Nat → Except Unit (List Char)

/-- `true` exactly when the computation did not raise. -/
def exOk {α : Type} : Except Unit α → Bool
  | Except.ok _ => true
  | Except.error _ => false

/-- The successful result, if any. -/
def exToOpt {α : Type} : Except Unit α → Option α
  | Except.ok a => some a
  | Except.error _ => none

/-- The per-chunk loop of `summarize_large_report` (lines 84-98 of `app.py`):
decode each window (an uncaught exception there aborts the whole call),
then summarize it inside `try/except`, skipping the chunk on failure.
Returns the collected summaries (or the uncaught exception) together with the
list of summarization calls that were made. -/
def runChunks (C : Collab) : List (List Nat) → Except Unit (List (List Char)) × List SummCall
  | [] => (Except.ok [], [])
  | ids :: rest =>
    match C.dec ids with
    | Except.error e => (Except.error e, [])
    | Except.ok chunkText =>
      match C.summ chunkText chunk_max_length chunk_min_length with
      | Except.ok s =>
        ((runChunks C rest).1.map (fun l => s :: l),
         SummCall.mk chunkText chunk_max_length chunk_min_length :: (runChunks C rest).2)
      | Except.error _ =>
        ((runChunks C rest).1,
         SummCall.mk chunkText chunk_max_length chunk_min_length :: (runChunks C rest).2)

/-- `summarize_large_report` from `app.py`, instrumented with the list of
summarization calls made.  Control flow mirrors the source: short-circuit for
fewer than 80 words, tokenize without truncation, split into windows of
`max_input_tokens`, summarize each window with skip-on-error, fall back to a
fixed sentence when nothing succeeded, join with single spaces, and run one
optional compression pass when the combined summary exceeds 160 words
(falling back to the uncompressed text if that call raises). -/
def summarize_large_report (C : Collab) (text : List Char) :
    Except Unit (List Char) × List SummCall :=
  if text = [] ∨ wordCount text < 80 then (Except.ok text, [])
  else
    match C.enc text with
    | Except.error e => (Except.error e, [])
    | Except.ok tokens =>
      match runChunks C (chunkTokens tokens) with
      | (Except.error e, log) => (Except.error e, log)
      | (Except.ok summaries, log) =>
        if summaries = [] then (Except.ok fallbackMessage, log)
        else
          if 160 < wordCount (joinSpace summaries) then
            match C.summ (joinSpace summaries) final_max_length final_min_length with
            | Except.ok s =>
              (Except.ok s,
               log ++ [SummCall.mk (joinSpace summaries) final_max_length final_min_length])
            | Except.error _ =>
              (Except.ok (joinSpace summaries),
               log ++ [SummCall.mk (joinSpace summaries) final_max_length final_min_length])
          else (Except.ok (joinSpace summaries), log)

/-- A collaborator that always raises: used to exhibit independence of the
short-circuit from the collaborators. -/
def failAllCollab : Collab :=
  Collab.mk (fun _ => Except.error ()) (fun _ => Except.error ())
    (fun _ _ _ => Except.error ())

/-- Claim C2: for every collaborator behaviour and every text whose word
count is strictly below 80 (the empty string included), the summarizer
returns the text unchanged and performs no summarization call. -/
theorem short_circuit_below_threshold (C : Collab) (text : List Char)
    (h : wordCount text < 80) :
    summarize_large_report C text = (Except.ok text, []) := by
  unfold summarize_large_report
  rw [if_pos (Or.inr h)]

/-- Witness for C2 at the two-character text `"hi"` and an always-raising
collaborator. -/
theorem short_circuit_below_threshold_witness :
    wordCount ['h', 'i'] < 80 ∧
      summarize_large_report failAllCollab ['h', 'i'] = (Except.ok ['h', 'i'], []) :=
  ⟨by decide, short_circuit_below_threshold failAllCollab ['h', 'i'] (by decide)⟩

theorem wordCount_nil : wordCount [] = 0 := rfl

theorem not_short (text : List Char) (h : 80 ≤ wordCount text) :
    ¬(text = [] ∨ wordCount text < 80) := by
  rintro (h1 | h1)
  · subst h1; exact absurd h (by decide)
  · omega

/-- Staging lemma: once the input passed the short-circuit, encoding succeeded
and the chunk loop finished without an uncaught exception, the remainder of
`summarize_large_report` is the assemble / fallback / second-pass stage. -/
theorem summarize_run (C : Collab) (text : List Char) (toks : List Nat)
    (summaries : List (List Char)) (log : List SummCall)
    (h80 : 80 ≤ wordCount text) (henc : C.enc text = Except.ok toks)
    (hrun : runChunks C (chunkTokens toks) = (Except.ok summaries, log)) :
    summarize_large_report C text =
      if summaries = [] then (Except.ok fallbackMessage, log)
      else
        if 160 < wordCount (joinSpace summaries) then
          match C.summ (joinSpace summaries) final_max_length final_min_length with
          | Except.ok s =>
            (Except.ok s,
             log ++ [SummCall.mk (joinSpace summaries) final_max_length final_min_length])
          | Except.error _ =>
            (Except.ok (joinSpace summaries),
             log ++ [SummCall.mk (joinSpace summaries) final_max_length final_min_length])
        else (Except.ok (joinSpace summaries), log) := by
  unfold summarize_large_report
  rw [if_neg (not_short text h80)]
  simp only [henc, hrun]

/-- The chunk loop never raises when decoding never raises, and it collects
exactly the successful summaries, skipping failed chunks. -/
theorem runChunks_ok (C : Collab) (hdec : ∀ ids, exOk (C.dec ids) = true) :
    ∀ chunks, (runChunks C chunks).1 =
      Except.ok (chunks.filterMap (fun ids =>
        (exToOpt (C.dec ids)).bind
          (fun t => exToOpt (C.summ t chunk_max_length chunk_min_length)))) := by
  intro chunks
  induction chunks with
  | nil => rfl
  | cons ids rest ih =>
    rcases hd : C.dec ids with e | t
    · exact absurd (hd ▸ hdec ids) (by simp [exOk])
    · rcases hs : C.summ t chunk_max_length chunk_min_length with e | s
      · simp [runChunks, hd, hs, ih, exToOpt]
      · simp [runChunks, hd, hs, ih, exToOpt, Except.map]

/-- An 80-word text (the word `w` repeated), used to exercise the paths that
pass the short-circuit. -/
def manyWords : List Char := (List.replicate 80 ['w', ' ']).flatten

/-- A collaborator whose summarization model always raises while the
tokenizer is total. -/
def noSummCollab : Collab :=
  Collab.mk (fun _ => Except.ok [1]) (fun _ => Except.ok ['x'])
    (fun _ _ _ => Except.error ())

/-- Claim C3: when the input reaches the chunking stage (at least 80 words,
encoding succeeded, decoding never raises) and the summarization collaborator
fails on every call, the result is exactly the fixed fallback sentence, and
that sentence is not empty. -/
theorem all_chunks_failed_fallback (C : Collab) (text : List Char)
    (h80 : 80 ≤ wordCount text)
    (henc : exOk (C.enc text) = true)
    (hdec : ∀ ids, exOk (C.dec ids) = true)
    (hsumm : ∀ s a b, C.summ s a b = Except.error ()) :
    (summarize_large_report C text).1 = Except.ok fallbackMessage ∧
      fallbackMessage ≠ [] := by
  refine ⟨?_, by decide⟩
  rcases he : C.enc text with e | toks
  · exact absurd (he ▸ henc) (by simp [exOk])
  · have hall := runChunks_ok C hdec (chunkTokens toks)
    rcases hrr : runChunks C (chunkTokens toks) with ⟨st, log⟩
    rw [hrr] at hall
    simp only at hall
    have hnil : (chunkTokens toks).filterMap (fun ids =>
        (exToOpt (C.dec ids)).bind
          (fun t => exToOpt (C.summ t chunk_max_length chunk_min_length))) = [] := by
      apply List.filterMap_eq_nil_iff.mpr
      intro ids _
      rcases hd : C.dec ids with e | t
      · rfl
      · simp [exToOpt, hsumm t chunk_max_length chunk_min_length]
    rw [hnil] at hall
    subst hall
    rw [summarize_run C text toks [] log h80 he hrr, if_pos rfl]

/-- Witness for C3: an 80-word text with an always-failing summarization
model yields the fallback sentence. -/
theorem all_chunks_failed_fallback_witness :
    80 ≤ wordCount manyWords ∧
      ((summarize_large_report noSummCollab manyWords).1 = Except.ok fallbackMessage ∧
        fallbackMessage ≠ []) :=
  ⟨by decide,
   all_chunks_failed_fallback noSummCollab manyWords (by decide) rfl
     (fun _ => rfl) (fun _ _ _ => rfl)⟩

/-- A collaborator whose tokenizer raises on encode. -/
def encRaisesCollab : Collab :=
  Collab.mk (fun _ => Except.error ()) (fun _ => Except.ok [])
    (fun _ _ _ => Except.ok ['o', 'k'])

/-- Counterexample to claim C4 as stated: the tokenizer's encode call sits
outside the `try/except` (lines 78-82 of `app.py`), so a raising encode
propagates out of `summarize_large_report` on any input that passes the
short-circuit. -/
theorem totality_cex :
    80 ≤ wordCount manyWords ∧
      (summarize_large_report encRaisesCollab manyWords).1 = Except.error () :=
  ⟨by decide, by rfl⟩

/-- Claim C4 (amended): provided the tokenizer encode and decode never raise,
`summarize_large_report` never propagates an exception, and a failing
per-chunk summarization call only skips that chunk's contribution while the
loop continues (the chunk loop returns exactly the successful summaries in
order). -/
theorem totality_amended (C : Collab) (text : List Char)
    (henc : ∀ s, exOk (C.enc s) = true)
    (hdec : ∀ ids, exOk (C.dec ids) = true) :
    exOk (summarize_large_report C text).1 = true ∧
      ∀ chunks, (runChunks C chunks).1 =
        Except.ok (chunks.filterMap (fun ids =>
          (exToOpt (C.dec ids)).bind
            (fun t => exToOpt (C.summ t chunk_max_length chunk_min_length)))) := by
  refine ⟨?_, runChunks_ok C hdec⟩
  by_cases hshort : text = [] ∨ wordCount text < 80
  · unfold summarize_large_report
    rw [if_pos hshort]
    rfl
  · have h80 : 80 ≤ wordCount text := by
      rcases Nat.lt_or_ge (wordCount text) 80 with h | h
      · exact absurd (Or.inr h) hshort
      · exact h
    rcases he : C.enc text with e | toks
    · exact absurd (he ▸ henc text) (by simp [exOk])
    · have hall := runChunks_ok C hdec (chunkTokens toks)
      rcases hrr : runChunks C (chunkTokens toks) with ⟨st, log⟩
      rw [hrr] at hall
      simp only at hall
      subst hall
      rw [summarize_run C text toks _ log h80 he hrr]
      split
      · rfl
      · split
        · rcases hs : C.summ _ final_max_length final_min_length with e | s <;> rfl
        · rfl

/-- A fully total collaborator (echoing summarizer). -/
def okCollab : Collab :=
  Collab.mk (fun _ => Except.ok []) (fun _ => Except.ok []) (fun s _ _ => Except.ok s)

/-- Witness for the amended C4 at a total collaborator and the text `"hi"`. -/
theorem totality_amended_witness :
    (∀ s, exOk (okCollab.enc s) = true) ∧
      (exOk (summarize_large_report okCollab ['h', 'i']).1 = true ∧
        ∀ chunks, (runChunks okCollab chunks).1 =
          Except.ok (chunks.filterMap (fun ids =>
            (exToOpt (okCollab.dec ids)).bind
              (fun t => exToOpt (okCollab.summ t chunk_max_length chunk_min_length))))) :=
  ⟨fun _ => rfl,
   totality_amended okCollab ['h', 'i'] (fun _ => rfl) (fun _ => rfl)⟩

/-- Claim C5: after a non-empty set of chunk summaries was assembled, the
extra compression call happens exactly when the space-joined combined summary
has strictly more than 160 words; it uses the same maximum length as the
per-chunk calls with a strictly larger minimum length, and if it raises, the
uncompressed combined summary is returned. -/
theorem second_pass_policy (C : Collab) (text : List Char) (toks : List Nat)
    (summaries : List (List Char)) (log : List SummCall)
    (h80 : 80 ≤ wordCount text) (henc : C.enc text = Except.ok toks)
    (hrun : runChunks C (chunkTokens toks) = (Except.ok summaries, log))
    (hne : summaries ≠ []) :
    (chunk_min_length < final_min_length ∧ final_max_length = chunk_max_length) ∧
      (if 160 < wordCount (joinSpace summaries) then
        summarize_large_report C text =
          ((match C.summ (joinSpace summaries) final_max_length final_min_length with
            | Except.ok s => Except.ok s
            | Except.error _ => Except.ok (joinSpace summaries)),
           log ++ [SummCall.mk (joinSpace summaries) final_max_length final_min_length])
      else summarize_large_report C text = (Except.ok (joinSpace summaries), log)) := by
  refine ⟨⟨by decide, rfl⟩, ?_⟩
  rw [summarize_run C text toks summaries log h80 henc hrun, if_neg hne]
  split
  · rcases hs : C.summ (joinSpace summaries) final_max_length final_min_length with e | s <;>
      simp [hs]
  · rfl

/-- A collaborator producing a single one-token chunk whose summary is the
one-character text `"s"`. -/
def oneChunkCollab : Collab :=
  Collab.mk (fun _ => Except.ok [3]) (fun _ => Except.ok ['c'])
    (fun _ _ _ => Except.ok ['s'])

/-- Witness for C5: one chunk, a short combined summary, so no second pass. -/
theorem second_pass_policy_witness :
    80 ≤ wordCount manyWords ∧
      runChunks oneChunkCollab (chunkTokens [3]) =
        (Except.ok [['s']], [SummCall.mk ['c'] chunk_max_length chunk_min_length]) ∧
      ((chunk_min_length < final_min_length ∧ final_max_length = chunk_max_length) ∧
        (if 160 < wordCount (joinSpace [['s']]) then
          summarize_large_report oneChunkCollab manyWords =
            ((match oneChunkCollab.summ (joinSpace [['s']]) final_max_length final_min_length with
              | Except.ok s => Except.ok s
              | Except.error _ => Except.ok (joinSpace [['s']])),
             [SummCall.mk ['c'] chunk_max_length chunk_min_length] ++
               [SummCall.mk (joinSpace [['s']]) final_max_length final_min_length])
        else summarize_large_report oneChunkCollab manyWords =
          (Except.ok (joinSpace [['s']]),
           [SummCall.mk ['c'] chunk_max_length chunk_min_length]))) :=
  ⟨by decide, rfl,
   second_pass_policy oneChunkCollab manyWords [3] [['s']]
     [SummCall.mk ['c'] chunk_max_length chunk_min_length]
     (by decide) rfl rfl (by simp)⟩

/-- A collaborator whose single chunk summarizes to the empty string. -/
def emptySummCollab : Collab :=
  Collab.mk (fun _ => Except.ok [7]) (fun _ => Except.ok ['x'])
    (fun _ _ _ => Except.ok [])

/-- Counterexample to claim C8 as stated: with a single chunk whose summary
call succeeds with the empty string, the combined summary is empty, no second
pass triggers, and `summarize_large_report` returns the empty string even
though the input has 80 words. -/
theorem nonempty_cex :
    80 ≤ wordCount manyWords ∧
      (summarize_large_report emptySummCollab manyWords).1 = Except.ok [] :=
  ⟨by decide, by rfl⟩

theorem joinSpace_ne_nil (s : List Char) (rest : List (List Char)) (h : s ≠ []) :
    joinSpace (s :: rest) ≠ [] := by
  cases rest with
  | nil => simpa [joinSpace] using h
  | cons t r => simp [joinSpace]

/-- Claim C8 (amended): for text of at least 80 words, with a tokenizer that
never raises and a summarization collaborator whose successful outputs are
never the empty string, `summarize_large_report` returns non-empty text (a
fortiori, the fixed fallback sentence when every chunk call failed). -/
theorem nonempty_amended (C : Collab) (text : List Char)
    (h80 : 80 ≤ wordCount text)
    (henc : exOk (C.enc text) = true)
    (hdec : ∀ ids, exOk (C.dec ids) = true)
    (hok : ∀ s a b r, C.summ s a b = Except.ok r → r ≠ []) :
    ∃ s, (summarize_large_report C text).1 = Except.ok s ∧ s ≠ [] := by
  rcases he : C.enc text with e | toks
  · exact absurd (he ▸ henc) (by simp [exOk])
  · have hall := runChunks_ok C hdec (chunkTokens toks)
    rcases hrr : runChunks C (chunkTokens toks) with ⟨st, log⟩
    rw [hrr] at hall
    simp only at hall
    subst hall
    rw [summarize_run C text toks _ log h80 he hrr]
    rcases hsum : (chunkTokens toks).filterMap (fun ids =>
        (exToOpt (C.dec ids)).bind
          (fun t => exToOpt (C.summ t chunk_max_length chunk_min_length))) with _ | ⟨s0, rest⟩
    · rw [if_pos rfl]
      exact ⟨fallbackMessage, rfl, by decide⟩
    · have hs0 : s0 ≠ [] := by
        have hmem : s0 ∈ (chunkTokens toks).filterMap (fun ids =>
            (exToOpt (C.dec ids)).bind
              (fun t => exToOpt (C.summ t chunk_max_length chunk_min_length))) := by
          rw [hsum]; exact List.mem_cons_self _ _
        rcases List.mem_filterMap.mp hmem with ⟨ids, _, hf⟩
        rcases Option.bind_eq_some.mp hf with ⟨t, _, hopt⟩
        rcases hsm : C.summ t chunk_max_length chunk_min_length with e | r
        · rw [hsm] at hopt; exact absurd hopt (by simp [exToOpt])
        · rw [hsm] at hopt
          simp only [exToOpt, Option.some.injEq] at hopt
          exact hopt ▸ hok t chunk_max_length chunk_min_length r hsm
      rw [if_neg (by simp)]
      have hjoin : joinSpace (s0 :: rest) ≠ [] := joinSpace_ne_nil s0 rest hs0
      split
      · rcases hs : C.summ (joinSpace (s0 :: rest)) final_max_length final_min_length with e | s
        · exact ⟨joinSpace (s0 :: rest), rfl, hjoin⟩
        · exact ⟨s, rfl, hok _ _ _ s hs⟩
      · exact ⟨joinSpace (s0 :: rest), rfl, hjoin⟩

/-- A collaborator with one chunk and a fixed non-empty summary output. -/
def okTextCollab : Collab :=
  Collab.mk (fun _ => Except.ok [5]) (fun _ => Except.ok ['x', 'y'])
    (fun _ _ _ => Except.ok ['o', 'k'])

/-- Witness for the amended C8 on an 80-word text. -/
theorem nonempty_amended_witness :
    80 ≤ wordCount manyWords ∧
      ∃ s, (summarize_large_report okTextCollab manyWords).1 = Except.ok s ∧ s ≠ [] :=
  ⟨by decide,
   nonempty_amended okTextCollab manyWords (by decide) rfl (fun _ => rfl)
     (fun s a b r h => by
       injection h with h'
       exact h' ▸ (by decide))⟩

/-- The regex class `[a-z]`. -/
def isLowerAZ (c : Char) : Bool := decide (97 ≤ c.toNat ∧ c.toNat ≤ 122)

/-- The regex class `[A-Z]`. -/
def isUpperAZ (c : Char) : Bool := decide (65 ≤ c.toNat ∧ c.toNat ≤ 90)

/-- The regex class `[0-9]` (`\d` restricted to ASCII digits). -/
def isDigit09 (c : Char) : Bool := decide (48 ≤ c.toNat ∧ c.toNat ≤ 57)

/-- The regex class `[A-Za-z]`. -/
def isLetterAZ (c : Char) : Bool := isLowerAZ c || isUpperAZ c

/-- The regex class `[.,;:]`. -/
def isPunctMark (c : Char) : Bool := c == '.' || c == ',' || c == ';' || c == ':'

/-- The pattern `([a-z])([A-Z])` of the first substitution. -/
def camelPair (a b : Char) : Bool := isLowerAZ a && isUpperAZ b

/-- The pattern `([.,;:])([A-Za-z])` of the second substitution. -/
def punctPair (a b : Char) : Bool := isPunctMark a && isLetterAZ b

/-- The pattern `(\d)([A-Za-z])` of the third substitution. -/
def digitAlphaPair (a b : Char) : Bool := isDigit09 a && isLetterAZ b

/-- The pattern `([A-Za-z])(\d)` of the fourth substitution. -/
def alphaDigitPair (a b : Char) : Bool := isLetterAZ a && isDigit09 b

/-- `re.sub` for a two-character pattern `p` with replacement `\1 \2`: scan
left to right, on a match emit the two characters separated by a space and
resume after the match (matches never overlap), otherwise advance one
character. -/
def sub2 (p : Char → Char → Bool) : List Char → List Char
  | [] => []
  | [c] => [c]
  | a :: b :: rest =>
    if p a b then a :: ' ' :: b :: sub2 p rest
    else a :: sub2 p (b :: rest)

/-- No adjacent pair of characters satisfies `p`. -/
def noPair (p : Char → Char → Bool) : List Char → Bool
  | a :: b :: rest => !p a b && noPair p (b :: rest)
  | _ => true

/-- Whitespace-run collapsing (`re.sub(r'\s+', ' ', text)`): the flag records
whether the previous character was whitespace (in which case the current run
already emitted its single space). -/
def collapseFrom : Bool → List Char → List Char
  | _, [] => []
  | prevWs, c :: rest =>
    if isPySpace c then
      (if prevWs then [] else [' ']) ++ collapseFrom true rest
    else c :: collapseFrom false rest

/-- `re.sub(r'\s+', ' ', text)`. -/
def collapseWs (l : List Char) : List Char := collapseFrom false l

/-- Removal of trailing whitespace (the right half of `str.strip()`). -/
def dropTrailingWs : List Char → List Char
  | [] => []
  | c :: rest =>
    if (dropTrailingWs rest).isEmpty && isPySpace c then []
    else c :: dropTrailingWs rest

/-- `str.strip()`: remove leading and trailing whitespace. -/
def stripWs (l : List Char) : List Char := dropTrailingWs (l.dropWhile isPySpace)

/-- `normalize_text` from `app.py`: the four spacing repairs in order, then
whitespace collapment and trimming. -/
def normalize_text (t : List Char) : List Char :=
  stripWs (collapseWs (sub2 alphaDigitPair (sub2 digitAlphaPair
    (sub2 punctPair (sub2 camelPair t)))))

/-- Two-step list induction matching the recursion pattern of `sub2`. -/
theorem twoStep {motive : List Char → Prop} (h0 : motive [])
    (h1 : ∀ c, motive [c])
    (h2 : ∀ a b rest, motive rest → motive (b :: rest) → motive (a :: b :: rest)) :
    ∀ l, motive l := by
  have key : ∀ n (l : List Char), l.length ≤ n → motive l := by
    intro n
    induction n with
    | zero =>
      intro l h
      have : l = [] := List.length_eq_zero.mp (Nat.le_zero.mp h)
      subst this; exact h0
    | succ n ih =>
      intro l h
      match l with
      | [] => exact h0
      | [c] => exact h1 c
      | a :: b :: rest =>
        simp only [List.length_cons] at h
        exact h2 a b rest (ih rest (by omega)) (ih (b :: rest) (by simp only [List.length_cons]; omega))
  exact fun l => key l.length l (Nat.le_refl _)

theorem noPair_two (p : Char → Char → Bool) (a b : Char) (t : List Char) :
    noPair p (a :: b :: t) = true ↔ p a b = false ∧ noPair p (b :: t) = true := by
  simp [noPair, Bool.and_eq_true, Bool.not_eq_true']

theorem noPair_tail (p : Char → Char → Bool) (a : Char) (l : List Char)
    (h : noPair p (a :: l) = true) : noPair p l = true := by
  cases l with
  | nil => rfl
  | cons b r => exact ((noPair_two p a b r).mp h).2

theorem noPair_cons (p : Char → Char → Bool) (a : Char) (t : List Char)
    (h1 : ∀ d t', t = d :: t' → p a d = false) (h2 : noPair p t = true) :
    noPair p (a :: t) = true := by
  cases t with
  | nil => rfl
  | cons d t' => exact (noPair_two p a d t').mpr ⟨h1 d t' rfl, h2⟩

theorem sub2_shape (p : Char → Char → Bool) (b : Char) (rest : List Char) :
    ∃ t, sub2 p (b :: rest) = b :: t := by
  cases rest with
  | nil => exact ⟨[], rfl⟩
  | cons c r =>
    by_cases h : p b c = true
    · exact ⟨' ' :: c :: sub2 p r, by simp [sub2, h]⟩
    · exact ⟨sub2 p (c :: r), by simp [sub2, h]⟩

theorem sub2_eq_of_noPair (p : Char → Char → Bool) :
    ∀ l, noPair p l = true → sub2 p l = l := by
  refine twoStep (fun _ => rfl) (fun c _ => rfl) ?_
  intro a b rest _ ih2 h
  rcases (noPair_two p a b rest).mp h with ⟨hab, htl⟩
  simp only [sub2, hab, if_false, Bool.false_eq_true]
  exact congrArg (a :: ·) (ih2 htl)

theorem noPair_sub2_self (p : Char → Char → Bool)
    (hchain : ∀ a b, p a b = true → ∀ x, p b x = false)
    (hs1 : ∀ x, p x ' ' = false) (hs2 : ∀ x, p ' ' x = false) :
    ∀ l, noPair p (sub2 p l) = true := by
  refine twoStep rfl (fun c => rfl) ?_
  intro a b rest ih1 ih2
  by_cases hab : p a b = true
  · simp only [sub2, hab, if_true]
    refine (noPair_two p a ' ' _).mpr ⟨hs1 a, ?_⟩
    refine (noPair_two p ' ' b _).mpr ⟨hs2 b, ?_⟩
    exact noPair_cons p b _ (fun d t' _ => hchain a b hab d) ih1
  · have hab' : p a b = false := by revert hab; cases p a b <;> simp
    simp only [sub2, hab', if_false, Bool.false_eq_true]
    rcases sub2_shape p b rest with ⟨t, ht⟩
    rw [ht]
    refine (noPair_two p a b t).mpr ⟨hab', ?_⟩
    rw [← ht]
    exact ih2

theorem noPair_sub2_other (p q : Char → Char → Bool)
    (hs1 : ∀ x, p x ' ' = false) (hs2 : ∀ x, p ' ' x = false) :
    ∀ l, noPair p l = true → noPair p (sub2 q l) = true := by
  refine twoStep (fun _ => rfl) (fun c _ => rfl) ?_
  intro a b rest ih1 ih2 h
  rcases (noPair_two p a b rest).mp h with ⟨hab, htl⟩
  by_cases hq : q a b = true
  · simp only [sub2, hq, if_true]
    refine (noPair_two p a ' ' _).mpr ⟨hs1 a, ?_⟩
    refine (noPair_two p ' ' b _).mpr ⟨hs2 b, ?_⟩
    refine noPair_cons p b _ ?_ (ih1 (noPair_tail p b rest htl))
    intro d t' hdt
    cases rest with
    | nil => simp [sub2] at hdt
    | cons e r =>
      rcases sub2_shape q e r with ⟨t2, ht2⟩
      rw [ht2] at hdt
      injection hdt with h1 h2
      subst h1
      exact ((noPair_two p b e r).mp htl).1
  · have hq' : q a b = false := by revert hq; cases q a b <;> simp
    simp only [sub2, hq', if_false, Bool.false_eq_true]
    rcases sub2_shape q b rest with ⟨t, ht⟩
    rw [ht]
    refine (noPair_two p a b t).mpr ⟨hab, ?_⟩
    rw [← ht]
    exact ih2 htl

/-- Either empty, or the head is not whitespace. -/
def headNotWs : List Char → Bool
  | [] => true
  | c :: _ => notWs c

/-- Either empty, or the last character is not whitespace. -/
def lastNotWs : List Char → Bool
  | [] => true
  | [c] => notWs c
  | _ :: c :: rest => lastNotWs (c :: rest)

/-- Every whitespace character is a plain space. -/
def plainWs (c : Char) : Bool := !(isPySpace c) || c == ' '

/-- Two adjacent whitespace characters. -/
def spacePair (a b : Char) : Bool := isPySpace a && isPySpace b

theorem collapseFrom_false_shape (c : Char) (rest : List Char) :
    ∃ t, collapseFrom false (c :: rest) = (if isPySpace c then ' ' else c) :: t := by
  by_cases hc : isPySpace c = true
  · exact ⟨collapseFrom true rest, by simp [collapseFrom, hc]⟩
  · exact ⟨collapseFrom false rest, by simp [collapseFrom, hc]⟩

theorem collapseFrom_true_head :
    ∀ l, headNotWs (collapseFrom true l) = true := by
  intro l
  induction l with
  | nil => rfl
  | cons c rest ih =>
    by_cases hc : isPySpace c = true
    · simpa [collapseFrom, hc] using ih
    · simp [collapseFrom, hc, headNotWs, notWs]

theorem noPair_collapseFrom (p : Char → Char → Bool)
    (hw1 : ∀ c x, isPySpace c = true → p c x = false)
    (hw2 : ∀ x c, isPySpace c = true → p x c = false) :
    ∀ l b, noPair p l = true → noPair p (collapseFrom b l) = true := by
  intro l
  induction l with
  | nil => intro b _; cases b <;> rfl
  | cons c rest ih =>
    intro b h
    by_cases hc : isPySpace c = true
    · cases b
      · simp only [collapseFrom, hc, if_true, Bool.false_eq_true, if_false,
          List.singleton_append]
        refine noPair_cons p ' ' _ ?_ (ih true (noPair_tail p c rest h))
        intro d t' _
        exact hw1 ' ' d (by decide)
      · simp only [collapseFrom, hc, if_true, List.nil_append]
        exact ih true (noPair_tail p c rest h)
    · have hc' : isPySpace c = false := by revert hc; cases isPySpace c <;> simp
      simp only [collapseFrom, hc', Bool.false_eq_true, if_false]
      refine noPair_cons p c _ ?_ (ih false (noPair_tail p c rest h))
      intro d t' hdt
      cases rest with
      | nil => simp [collapseFrom] at hdt
      | cons e r =>
        rcases collapseFrom_false_shape e r with ⟨t2, ht2⟩
        rw [ht2] at hdt
        injection hdt with hde _
        by_cases he : isPySpace e = true
        · rw [if_pos he] at hde
          rw [← hde]
          exact hw2 c ' ' (by decide)
        · rw [if_neg he] at hde
          rw [← hde]
          exact ((noPair_two p c e r).mp h).1

theorem onlyPlain_collapseFrom :
    ∀ (l : List Char) b, (collapseFrom b l).all plainWs = true := by
  intro l
  induction l with
  | nil => intro b; cases b <;> rfl
  | cons c rest ih =>
    intro b
    by_cases hc : isPySpace c = true
    · cases b <;> simp [collapseFrom, hc, ih true, plainWs]
    · have hc' : isPySpace c = false := by revert hc; cases isPySpace c <;> simp
      simp [collapseFrom, hc', ih false, plainWs]

theorem noDouble_collapseFrom :
    ∀ (l : List Char) b, noPair spacePair (collapseFrom b l) = true := by
  intro l
  induction l with
  | nil => intro b; cases b <;> rfl
  | cons c rest ih =>
    intro b
    by_cases hc : isPySpace c = true
    · cases b
      · simp only [collapseFrom, hc, if_true, Bool.false_eq_true, if_false,
          List.singleton_append]
        refine noPair_cons spacePair ' ' _ ?_ (ih true)
        intro d t' hdt
        have hh := collapseFrom_true_head rest
        rw [hdt] at hh
        simp only [headNotWs, notWs, Bool.not_eq_true'] at hh
        simp [spacePair, hh]
      · simp only [collapseFrom, hc, if_true, List.nil_append]
        exact ih true
    · have hc' : isPySpace c = false := by revert hc; cases isPySpace c <;> simp
      simp only [collapseFrom, hc', Bool.false_eq_true, if_false]
      refine noPair_cons spacePair c _ ?_ (ih false)
      intro d t' _
      simp [spacePair, hc']

theorem noPair_dropWhile (p : Char → Char → Bool) (f : Char → Bool) :
    ∀ l, noPair p l = true → noPair p (List.dropWhile f l) = true := by
  intro l
  induction l with
  | nil => intro h; exact h
  | cons c rest ih =>
    intro h
    by_cases hc : f c = true
    · rw [List.dropWhile_cons_of_pos hc]
      exact ih (noPair_tail p c rest h)
    · have hc' : f c = false := by revert hc; cases f c <;> simp
      rw [List.dropWhile_cons_of_neg (by simp [hc'])]
      exact h

theorem all_dropWhile (f g : Char → Bool) :
    ∀ l : List Char, l.all g = true → (List.dropWhile f l).all g = true := by
  intro l
  induction l with
  | nil => intro h; exact h
  | cons c rest ih =>
    intro h
    rw [List.all_cons, Bool.and_eq_true] at h
    by_cases hc : f c = true
    · rw [List.dropWhile_cons_of_pos hc]
      exact ih h.2
    · have hc' : f c = false := by revert hc; cases f c <;> simp
      rw [List.dropWhile_cons_of_neg (by simp [hc'])]
      rw [List.all_cons, Bool.and_eq_true]
      exact h

theorem headNotWs_dropWhile :
    ∀ l, headNotWs (List.dropWhile isPySpace l) = true := by
  intro l
  induction l with
  | nil => rfl
  | cons c rest ih =>
    by_cases hc : isPySpace c = true
    · rw [List.dropWhile_cons_of_pos hc]
      exact ih
    · have hc' : isPySpace c = false := by revert hc; cases isPySpace c <;> simp
      rw [List.dropWhile_cons_of_neg (by simp [hc'])]
      simp [headNotWs, notWs, hc']

theorem dropWhile_id_of_head (l : List Char) (h : headNotWs l = true) :
    List.dropWhile isPySpace l = l := by
  cases l with
  | nil => rfl
  | cons c rest =>
    simp only [headNotWs, notWs, Bool.not_eq_true'] at h
    exact List.dropWhile_cons_of_neg (by simp [h])

theorem filter_dropWhile_sp :
    ∀ l : List Char, (List.dropWhile isPySpace l).filter notWs = l.filter notWs := by
  intro l
  induction l with
  | nil => rfl
  | cons c rest ih =>
    by_cases hc : isPySpace c = true
    · rw [List.dropWhile_cons_of_pos hc, ih,
        List.filter_cons_of_neg (by simp [notWs, hc])]
    · have hc' : isPySpace c = false := by revert hc; cases isPySpace c <;> simp
      rw [List.dropWhile_cons_of_neg (by simp [hc'])]

theorem dropTrailing_shape (c : Char) (rest : List Char) :
    dropTrailingWs (c :: rest) = [] ∨ ∃ t, dropTrailingWs (c :: rest) = c :: t := by
  by_cases h : ((dropTrailingWs rest).isEmpty && isPySpace c) = true
  · left; simp [dropTrailingWs, h]
  · right
    exact ⟨dropTrailingWs rest, by simp [dropTrailingWs, h]⟩

theorem noPair_dropTrailing (p : Char → Char → Bool) :
    ∀ l, noPair p l = true → noPair p (dropTrailingWs l) = true := by
  intro l
  induction l with
  | nil => intro h; exact h
  | cons c rest ih =>
    intro h
    by_cases hcond : ((dropTrailingWs rest).isEmpty && isPySpace c) = true
    · simp [dropTrailingWs, hcond]
      rfl
    · simp only [dropTrailingWs, hcond, Bool.false_eq_true, if_false]
      refine noPair_cons p c _ ?_ (ih (noPair_tail p c rest h))
      intro d t' hdt
      cases rest with
      | nil => simp [dropTrailingWs] at hdt
      | cons e r =>
        rcases dropTrailing_shape e r with h2 | ⟨t2, h2⟩
        · rw [h2] at hdt; cases hdt
        · rw [h2] at hdt
          injection hdt with hde _
          rw [← hde]
          exact ((noPair_two p c e r).mp h).1

theorem all_dropTrailing (g : Char → Bool) :
    ∀ l : List Char, l.all g = true → (dropTrailingWs l).all g = true := by
  intro l
  induction l with
  | nil => intro h; exact h
  | cons c rest ih =>
    intro h
    rw [List.all_cons, Bool.and_eq_true] at h
    by_cases hcond : ((dropTrailingWs rest).isEmpty && isPySpace c) = true
    · simp [dropTrailingWs, hcond]
    · simp only [dropTrailingWs, hcond, Bool.false_eq_true, if_false]
      rw [List.all_cons, Bool.and_eq_true]
      exact ⟨h.1, ih h.2⟩

theorem lastNotWs_dropTrailing :
    ∀ l : List Char, lastNotWs (dropTrailingWs l) = true := by
  intro l
  induction l with
  | nil => rfl
  | cons c rest ih =>
    by_cases hcond : ((dropTrailingWs rest).isEmpty && isPySpace c) = true
    · simp [dropTrailingWs, hcond]; rfl
    · simp only [dropTrailingWs, hcond, Bool.false_eq_true, if_false]
      rcases hr : dropTrailingWs rest with _ | ⟨d, t⟩
      · have hsp : isPySpace c = false := by
          rw [hr] at hcond
          revert hcond; cases isPySpace c <;> simp
        simp [lastNotWs, notWs, hsp]
      · rw [hr] at ih
        exact ih

theorem headNotWs_dropTrailing (l : List Char) (h : headNotWs l = true) :
    headNotWs (dropTrailingWs l) = true := by
  cases l with
  | nil => rfl
  | cons c rest =>
    rcases dropTrailing_shape c rest with h2 | ⟨t, h2⟩
    · rw [h2]; rfl
    · rw [h2]
      exact h

theorem dropTrailing_id_of_last :
    ∀ l : List Char, lastNotWs l = true → dropTrailingWs l = l := by
  intro l
  induction l with
  | nil => intro _; rfl
  | cons c rest ih =>
    intro h
    cases rest with
    | nil =>
      simp only [lastNotWs, notWs, Bool.not_eq_true'] at h
      simp [dropTrailingWs, h]
    | cons d r =>
      have hr : dropTrailingWs (d :: r) = d :: r := ih h
      have hstep : dropTrailingWs (c :: d :: r) =
          if (dropTrailingWs (d :: r)).isEmpty && isPySpace c then []
          else c :: dropTrailingWs (d :: r) := rfl
      rw [hstep, hr]
      simp

theorem filter_dropTrailing :
    ∀ l : List Char, (dropTrailingWs l).filter notWs = l.filter notWs := by
  intro l
  induction l with
  | nil => rfl
  | cons c rest ih =>
    by_cases hcond : ((dropTrailingWs rest).isEmpty && isPySpace c) = true
    · rcases Bool.and_eq_true .. |>.mp hcond with ⟨hemp, hsp⟩
      have hrnil : dropTrailingWs rest = [] := by
        revert hemp; cases dropTrailingWs rest <;> simp
      simp only [dropTrailingWs, hcond, if_true]
      rw [List.filter_cons_of_neg (by simp [notWs, hsp]), ← ih, hrnil]
    · simp only [dropTrailingWs, hcond, Bool.false_eq_true, if_false]
      by_cases hc : notWs c = true
      · rw [List.filter_cons_of_pos (by simp [hc]), List.filter_cons_of_pos (by simp [hc]), ih]
      · have hc' : notWs c = false := by revert hc; cases notWs c <;> simp
        rw [List.filter_cons_of_neg (by simp [hc']), List.filter_cons_of_neg (by simp [hc']), ih]

theorem collapseFrom_id :
    ∀ l : List Char, l.all plainWs = true → noPair spacePair l = true →
      ∀ b, (b = true → headNotWs l = true) → collapseFrom b l = l := by
  intro l
  induction l with
  | nil => intro _ _ b _; cases b <;> rfl
  | cons c rest ih =>
    intro hp hd b hb
    rw [List.all_cons, Bool.and_eq_true] at hp
    rcases hp with ⟨hpc, hprest⟩
    by_cases hc : isPySpace c = true
    · have hb' : b = false := by
        cases b
        · rfl
        · have := hb rfl
          simp only [headNotWs, notWs, Bool.not_eq_true'] at this
          rw [this] at hc
          cases hc
      subst hb'
      have hceq : c = ' ' := by
        simp only [plainWs, hc, Bool.not_true, Bool.false_or, beq_iff_eq] at hpc
        exact hpc
      have hrest : collapseFrom true rest = rest := by
        apply ih hprest (noPair_tail spacePair c rest hd) true
        intro _
        cases rest with
        | nil => rfl
        | cons d r =>
          have := ((noPair_two spacePair c d r).mp hd).1
          simp only [spacePair, hc, Bool.true_and] at this
          simp [headNotWs, notWs, this]
      subst hceq
      simp [collapseFrom, hc, hrest]
    · have hc' : isPySpace c = false := by revert hc; cases isPySpace c <;> simp
      simp only [collapseFrom, hc', Bool.false_eq_true, if_false]
      rw [ih hprest (noPair_tail spacePair c rest hd) false (fun h => nomatch h)]

theorem ws_char_classes (c : Char) (h : isPySpace c = true) :
    isLowerAZ c = false ∧ isUpperAZ c = false ∧ isDigit09 c = false ∧
      isPunctMark c = false ∧ isLetterAZ c = false := by
  simp only [isPySpace, Bool.or_eq_true, beq_iff_eq] at h
  rcases h with ((((h | h) | h) | h) | h) | h <;> subst h <;> decide

theorem upper_not_lower (b : Char) (h : isUpperAZ b = true) : isLowerAZ b = false := by
  simp only [isUpperAZ, decide_eq_true_eq] at h
  simp only [isLowerAZ, decide_eq_false_iff_not]
  omega

theorem letter_not_punct (b : Char) (h : isLetterAZ b = true) : isPunctMark b = false := by
  cases hp : isPunctMark b
  · rfl
  · exfalso
    simp only [isPunctMark, Bool.or_eq_true, beq_iff_eq] at hp
    rcases hp with ((h1 | h1) | h1) | h1 <;> subst h1 <;> exact absurd h (by decide)

theorem letter_not_digit (b : Char) (h : isLetterAZ b = true) : isDigit09 b = false := by
  simp only [isLetterAZ, Bool.or_eq_true, isLowerAZ, isUpperAZ, decide_eq_true_eq] at h
  simp only [isDigit09, decide_eq_false_iff_not]
  omega

theorem digit_not_letter (b : Char) (h : isDigit09 b = true) : isLetterAZ b = false := by
  simp only [isDigit09, decide_eq_true_eq] at h
  simp only [isLetterAZ, isLowerAZ, isUpperAZ, Bool.or_eq_false_iff, decide_eq_false_iff_not]
  exact ⟨by omega, by omega⟩

theorem camel_ws_left (c x : Char) (h : isPySpace c = true) : camelPair c x = false := by
  simp [camelPair, (ws_char_classes c h).1]

theorem camel_ws_right (x c : Char) (h : isPySpace c = true) : camelPair x c = false := by
  simp [camelPair, (ws_char_classes c h).2.1]

theorem camel_chain (a b : Char) (h : camelPair a b = true) (x : Char) :
    camelPair b x = false := by
  rcases Bool.and_eq_true .. |>.mp h with ⟨_, hu⟩
  simp [camelPair, upper_not_lower b hu]

theorem punct_ws_left (c x : Char) (h : isPySpace c = true) : punctPair c x = false := by
  simp [punctPair, (ws_char_classes c h).2.2.2.1]

theorem punct_ws_right (x c : Char) (h : isPySpace c = true) : punctPair x c = false := by
  simp [punctPair, (ws_char_classes c h).2.2.2.2]

theorem punct_chain (a b : Char) (h : punctPair a b = true) (x : Char) :
    punctPair b x = false := by
  rcases Bool.and_eq_true .. |>.mp h with ⟨_, hl⟩
  simp [punctPair, letter_not_punct b hl]

theorem digitAlpha_ws_left (c x : Char) (h : isPySpace c = true) :
    digitAlphaPair c x = false := by
  simp [digitAlphaPair, (ws_char_classes c h).2.2.1]

theorem digitAlpha_ws_right (x c : Char) (h : isPySpace c = true) :
    digitAlphaPair x c = false := by
  simp [digitAlphaPair, (ws_char_classes c h).2.2.2.2]

theorem digitAlpha_chain (a b : Char) (h : digitAlphaPair a b = true) (x : Char) :
    digitAlphaPair b x = false := by
  rcases Bool.and_eq_true .. |>.mp h with ⟨_, hl⟩
  simp [digitAlphaPair, letter_not_digit b hl]

theorem alphaDigit_ws_left (c x : Char) (h : isPySpace c = true) :
    alphaDigitPair c x = false := by
  simp [alphaDigitPair, (ws_char_classes c h).2.2.2.2]

theorem alphaDigit_ws_right (x c : Char) (h : isPySpace c = true) :
    alphaDigitPair x c = false := by
  simp [alphaDigitPair, (ws_char_classes c h).2.2.1]

theorem alphaDigit_chain (a b : Char) (h : alphaDigitPair a b = true) (x : Char) :
    alphaDigitPair b x = false := by
  rcases Bool.and_eq_true .. |>.mp h with ⟨_, hd⟩
  simp [alphaDigitPair, digit_not_letter b hd]

/-- A text on which every stage of `normalize_text` is the identity. -/
theorem normalize_fixed (l : List Char)
    (h1 : noPair camelPair l = true) (h2 : noPair punctPair l = true)
    (h3 : noPair digitAlphaPair l = true) (h4 : noPair alphaDigitPair l = true)
    (hp : l.all plainWs = true) (hd : noPair spacePair l = true)
    (hh : headNotWs l = true) (hl : lastNotWs l = true) :
    normalize_text l = l := by
  unfold normalize_text
  rw [sub2_eq_of_noPair camelPair l h1, sub2_eq_of_noPair punctPair l h2,
    sub2_eq_of_noPair digitAlphaPair l h3, sub2_eq_of_noPair alphaDigitPair l h4]
  unfold collapseWs stripWs
  rw [collapseFrom_id l hp hd false (fun h => nomatch h)]
  rw [dropWhile_id_of_head l hh, dropTrailing_id_of_last l hl]

/-- The output of `normalize_text` satisfies every invariant that makes a
second application the identity. -/
theorem normalize_props (t : List Char) :
    noPair camelPair (normalize_text t) = true ∧
    noPair punctPair (normalize_text t) = true ∧
    noPair digitAlphaPair (normalize_text t) = true ∧
    noPair alphaDigitPair (normalize_text t) = true ∧
    (normalize_text t).all plainWs = true ∧
    noPair spacePair (normalize_text t) = true ∧
    headNotWs (normalize_text t) = true ∧
    lastNotWs (normalize_text t) = true := by
  have hsp : isPySpace ' ' = true := by decide
  have hM1 : noPair camelPair (sub2 alphaDigitPair (sub2 digitAlphaPair
      (sub2 punctPair (sub2 camelPair t)))) = true := by
    refine noPair_sub2_other camelPair alphaDigitPair
      (fun x => camel_ws_right x ' ' hsp) (fun x => camel_ws_left ' ' x hsp) _ ?_
    refine noPair_sub2_other camelPair digitAlphaPair
      (fun x => camel_ws_right x ' ' hsp) (fun x => camel_ws_left ' ' x hsp) _ ?_
    refine noPair_sub2_other camelPair punctPair
      (fun x => camel_ws_right x ' ' hsp) (fun x => camel_ws_left ' ' x hsp) _ ?_
    exact noPair_sub2_self camelPair camel_chain
      (fun x => camel_ws_right x ' ' hsp) (fun x => camel_ws_left ' ' x hsp) t
  have hM2 : noPair punctPair (sub2 alphaDigitPair (sub2 digitAlphaPair
      (sub2 punctPair (sub2 camelPair t)))) = true := by
    refine noPair_sub2_other punctPair alphaDigitPair
      (fun x => punct_ws_right x ' ' hsp) (fun x => punct_ws_left ' ' x hsp) _ ?_
    refine noPair_sub2_other punctPair digitAlphaPair
      (fun x => punct_ws_right x ' ' hsp) (fun x => punct_ws_left ' ' x hsp) _ ?_
    exact noPair_sub2_self punctPair punct_chain
      (fun x => punct_ws_right x ' ' hsp) (fun x => punct_ws_left ' ' x hsp) _
  have hM3 : noPair digitAlphaPair (sub2 alphaDigitPair (sub2 digitAlphaPair
      (sub2 punctPair (sub2 camelPair t)))) = true := by
    refine noPair_sub2_other digitAlphaPair alphaDigitPair
      (fun x => digitAlpha_ws_right x ' ' hsp) (fun x => digitAlpha_ws_left ' ' x hsp) _ ?_
    exact noPair_sub2_self digitAlphaPair digitAlpha_chain
      (fun x => digitAlpha_ws_right x ' ' hsp) (fun x => digitAlpha_ws_left ' ' x hsp) _
  have hM4 : noPair alphaDigitPair (sub2 alphaDigitPair (sub2 digitAlphaPair
      (sub2 punctPair (sub2 camelPair t)))) = true :=
    noPair_sub2_self alphaDigitPair alphaDigit_chain
      (fun x => alphaDigit_ws_right x ' ' hsp) (fun x => alphaDigit_ws_left ' ' x hsp) _
  unfold normalize_text collapseWs stripWs
  refine ⟨?_, ?_, ?_, ?_, ?_, ?_, ?_, ?_⟩
  · exact noPair_dropTrailing _ _ (noPair_dropWhile _ _ _
      (noPair_collapseFrom camelPair camel_ws_left camel_ws_right _ false hM1))
  · exact noPair_dropTrailing _ _ (noPair_dropWhile _ _ _
      (noPair_collapseFrom punctPair punct_ws_left punct_ws_right _ false hM2))
  · exact noPair_dropTrailing _ _ (noPair_dropWhile _ _ _
      (noPair_collapseFrom digitAlphaPair digitAlpha_ws_left digitAlpha_ws_right _ false hM3))
  · exact noPair_dropTrailing _ _ (noPair_dropWhile _ _ _
      (noPair_collapseFrom alphaDigitPair alphaDigit_ws_left alphaDigit_ws_right _ false hM4))
  · exact all_dropTrailing _ _ (all_dropWhile _ _ _ (onlyPlain_collapseFrom _ false))
  · exact noPair_dropTrailing _ _ (noPair_dropWhile _ _ _ (noDouble_collapseFrom _ false))
  · exact headNotWs_dropTrailing _ (headNotWs_dropWhile _)
  · exact lastNotWs_dropTrailing _

/-- Claim C6: `normalize_text` is idempotent — applying it to its own output
changes nothing. -/
theorem normalize_idempotent (t : List Char) :
    normalize_text (normalize_text t) = normalize_text t := by
  rcases normalize_props t with ⟨h1, h2, h3, h4, hp, hd, hh, hl⟩
  exact normalize_fixed (normalize_text t) h1 h2 h3 h4 hp hd hh hl

theorem notWs_space : notWs ' ' = false := by decide

theorem filter_sub2 (p : Char → Char → Bool) :
    ∀ l, (sub2 p l).filter notWs = l.filter notWs := by
  refine twoStep rfl (fun c => rfl) ?_
  intro a b rest ih1 ih2
  by_cases hab : p a b = true
  · simp only [sub2, hab, if_true, List.filter_cons, notWs_space, Bool.false_eq_true,
      if_false, ih1]
  · have hab' : p a b = false := by revert hab; cases p a b <;> simp
    simp only [sub2, hab', Bool.false_eq_true, if_false, List.filter_cons, ih2]

theorem filter_collapseFrom :
    ∀ (l : List Char) b, (collapseFrom b l).filter notWs = l.filter notWs := by
  intro l
  induction l with
  | nil => intro b; cases b <;> rfl
  | cons c rest ih =>
    intro b
    by_cases hc : isPySpace c = true
    · have hcw : notWs c = false := by simp [notWs, hc]
      cases b <;>
        simp [collapseFrom, hc, List.filter_cons, hcw, notWs_space, ih true]
    · have hc' : isPySpace c = false := by revert hc; cases isPySpace c <;> simp
      have hcw : notWs c = true := by simp [notWs, hc']
      simp [collapseFrom, hc', List.filter_cons, hcw, ih false]

theorem filter_normalize (t : List Char) :
    (normalize_text t).filter notWs = t.filter notWs := by
  unfold normalize_text collapseWs stripWs
  rw [filter_dropTrailing, filter_dropWhile_sp, filter_collapseFrom,
    filter_sub2, filter_sub2, filter_sub2, filter_sub2]

/-- Claim C10: `normalize_text` preserves the sequence of non-whitespace
characters — it only inserts single spaces, collapses whitespace runs and
trims, never deleting, altering or reordering a non-whitespace character. -/
theorem normalize_preserves_nonspace (t : List Char) :
    (normalize_text t).filter notWs = t.filter notWs :=
  filter_normalize t

/-- Claim C9: on input with at least one non-whitespace character,
`normalize_text` returns a non-empty string. -/
theorem normalize_nonempty (t : List Char) (h : t.any notWs = true) :
    normalize_text t ≠ [] := by
  intro hn
  have hf := filter_normalize t
  rw [hn] at hf
  rcases List.any_eq_true.mp h with ⟨c, hc, hw⟩
  have : c ∈ t.filter notWs := List.mem_filter.mpr ⟨hc, hw⟩
  rw [← hf] at this
  exact absurd this (List.not_mem_nil c)

/-- Witness for C9 at the single character `"a"`. -/
theorem normalize_nonempty_witness :
    (['a'].any notWs = true) ∧ normalize_text ['a'] ≠ [] :=
  ⟨by decide, normalize_nonempty ['a'] (by decide)⟩

/-- Python string `<` (lexicographic by code point, shorter prefix first). -/
def strLt : List Char → List Char → Bool
  | _, [] => false
  | [], _ :: _ => true
  | a :: as, b :: bs =>
    if a.toNat < b.toNat then true
    else if b.toNat < a.toNat then false
    else strLt as bs

/-- Python string `<=`. -/
def strLe (a b : List Char) : Bool := !strLt b a

/-- Insertion into a sorted list of strings. -/
def insertSorted (x : List Char) : List (List Char) → List (List Char)
  | [] => [x]
  | y :: ys => if strLe x y then x :: y :: ys else y :: insertSorted x ys

/-- `sorted(...)` over strings (insertion sort; Python's sort is stable but
on deduplicated values the order is fully determined by `strLe`). -/
def sortStr : List (List Char) → List (List Char)
  | [] => []
  | x :: xs => insertSorted x (sortStr xs)

/-- Adjacent elements are in `strLe` order. -/
def isSortedStr : List (List Char) → Bool
  | a :: b :: rest => strLe a b && isSortedStr (b :: rest)
  | _ => true

/-- The displayed group for one category (lines 160-167 of `app.py`):
the spans of that category are collected into a `set` (deduplication by
exact string equality) and displayed via `sorted(items)`. -/
def groupFor (es : List (List Char × List Char)) (lab : List Char) : List (List Char) :=
  sortStr ((es.filterMap (fun e => if e.2 = lab then some e.1 else none)).dedup)

theorem strLt_asymm : ∀ a b : List Char, strLt a b = true → strLt b a = false := by
  intro a
  induction a with
  | nil =>
    intro b h
    cases b with
    | nil => exact absurd h (by simp [strLt])
    | cons c cs => rfl
  | cons a as ih =>
    intro b h
    cases b with
    | nil => exact absurd h (by simp [strLt])
    | cons c cs =>
      simp only [strLt] at h ⊢
      by_cases h1 : a.toNat < c.toNat
      · rw [if_neg (by omega), if_pos h1]
      · by_cases h2 : c.toNat < a.toNat
        · rw [if_neg h1, if_pos h2] at h
          exact absurd h (by simp)
        · rw [if_neg h1, if_neg h2] at h
          rw [if_neg h2, if_neg h1]
          exact ih cs h

theorem strLe_of_not_strLe (x y : List Char) (h : ¬strLe x y = true) :
    strLe y x = true := by
  have h1 : strLt y x = true := by
    simp only [strLe, Bool.not_eq_true', Bool.not_eq_false] at h
    exact h
  simp only [strLe, Bool.not_eq_true', strLt_asymm y x h1]

theorem insertSorted_ne_nil (x : List Char) (l : List (List Char)) :
    insertSorted x l ≠ [] := by
  cases l with
  | nil => simp [insertSorted]
  | cons y ys =>
    simp only [insertSorted]
    split <;> simp

theorem insertSorted_head (x : List Char) (l : List (List Char)) (z : List Char)
    (t : List (List Char)) (h : insertSorted x l = z :: t) :
    z = x ∨ ∃ l', l = z :: l' := by
  cases l with
  | nil =>
    simp only [insertSorted] at h
    injection h with h1 _
    exact Or.inl h1.symm
  | cons y ys =>
    simp only [insertSorted] at h
    by_cases hxy : strLe x y = true
    · rw [if_pos hxy] at h
      injection h with h1 _
      exact Or.inl h1.symm
    · rw [if_neg hxy] at h
      injection h with h1 _
      exact Or.inr ⟨ys, by rw [h1]⟩

theorem isSorted_two (a b : List Char) (t : List (List Char)) :
    isSortedStr (a :: b :: t) = true ↔ strLe a b = true ∧ isSortedStr (b :: t) = true := by
  simp [isSortedStr, Bool.and_eq_true]

theorem isSorted_tail (a : List Char) (l : List (List Char))
    (h : isSortedStr (a :: l) = true) : isSortedStr l = true := by
  cases l with
  | nil => rfl
  | cons b t => exact ((isSorted_two a b t).mp h).2

theorem isSorted_insertSorted (x : List Char) :
    ∀ l, isSortedStr l = true → isSortedStr (insertSorted x l) = true := by
  intro l
  induction l with
  | nil => intro _; rfl
  | cons y ys ih =>
    intro h
    simp only [insertSorted]
    by_cases hxy : strLe x y = true
    · rw [if_pos hxy]
      exact (isSorted_two x y ys).mpr ⟨hxy, h⟩
    · rw [if_neg hxy]
      have hyx : strLe y x = true := strLe_of_not_strLe x y hxy
      have htail := ih (isSorted_tail y ys h)
      rcases hins : insertSorted x ys with _ | ⟨z, t⟩
      · exact absurd hins (insertSorted_ne_nil x ys)
      · rw [hins] at htail
        refine (isSorted_two y z t).mpr ⟨?_, htail⟩
        rcases insertSorted_head x ys z t hins with h1 | ⟨ys', h2⟩
        · rw [h1]; exact hyx
        · rw [h2] at h
          exact ((isSorted_two y z ys').mp h).1

theorem isSorted_sortStr : ∀ l, isSortedStr (sortStr l) = true := by
  intro l
  induction l with
  | nil => rfl
  | cons x xs ih => exact isSorted_insertSorted x (sortStr xs) ih

theorem insertSorted_perm (x : List Char) :
    ∀ l, (insertSorted x l).Perm (x :: l) := by
  intro l
  induction l with
  | nil => exact List.Perm.refl _
  | cons y ys ih =>
    simp only [insertSorted]
    by_cases hxy : strLe x y = true
    · rw [if_pos hxy]
    · rw [if_neg hxy]
      exact (ih.cons y).trans (List.Perm.swap x y ys)

theorem sortStr_perm : ∀ l, (sortStr l).Perm l := by
  intro l
  induction l with
  | nil => exact List.Perm.refl _
  | cons x xs ih => exact (insertSorted_perm x (sortStr xs)).trans (ih.cons x)

theorem mem_groupFor (es : List (List Char × List Char)) (lab s : List Char) :
    s ∈ groupFor es lab ↔ (s, lab) ∈ es := by
  unfold groupFor
  rw [(sortStr_perm _).mem_iff, List.mem_dedup, List.mem_filterMap]
  constructor
  · rintro ⟨⟨a, b⟩, he, hf⟩
    by_cases hb : b = lab
    · subst hb
      simp only [if_pos rfl] at hf
      injection hf with ha
      rw [← ha]
      exact he
    · simp only [if_neg hb] at hf
      cases hf
  · intro h
    exact ⟨(s, lab), h, by simp⟩

/-- The three-entity example from the specification. -/
def entExample : List (List Char × List Char) :=
  [(("Aspirin").data, ("DRUG").data), (("aspirin").data, ("DRUG").data),
   (("Flu").data, ("DISEASE").data)]

/-- Claim C7: the displayed group of a category holds exactly the distinct
span texts of that category (case-sensitive), without duplicates, sorted
lexicographically; on the specification's example, DRUG maps to
`["Aspirin", "aspirin"]` and DISEASE to `["Flu"]`. -/
theorem entity_grouping_spec (es : List (List Char × List Char)) (lab : List Char) :
    isSortedStr (groupFor es lab) = true ∧
    (groupFor es lab).Nodup ∧
    (∀ s, s ∈ groupFor es lab ↔ (s, lab) ∈ es) ∧
    groupFor entExample (("DRUG").data) = [("Aspirin").data, ("aspirin").data] ∧
    groupFor entExample (("DISEASE").data) = [("Flu").data] :=
  ⟨isSorted_sortStr _,
   ((sortStr_perm _).nodup_iff).mpr (List.nodup_dedup _),
   fun s => mem_groupFor es lab s,
   by decide, by decide⟩

/-- Witness instantiating C7 on the specification's example. -/
theorem entity_grouping_spec_witness :
    isSortedStr (groupFor entExample (("DRUG").data)) = true ∧
    (groupFor entExample (("DRUG").data)).Nodup ∧
    (∀ s, s ∈ groupFor entExample (("DRUG").data) ↔ (s, ("DRUG").data) ∈ entExample) ∧
    groupFor entExample (("DRUG").data) = [("Aspirin").data, ("aspirin").data] ∧
    groupFor entExample (("DISEASE").data) = [("Flu").data] :=
  entity_grouping_spec entExample (("DRUG").data)
